import Mathlib

/-!
Verification of the bootstrap-polling key-value node (`src/shared_db.rs`,
`src/main.rs`) against its natural-language specification.

The embedding is shallow:
- `BTreeMap<String, String>` is modelled as an association list sorted by key
  in strictly ascending order (`Store`), with `storeInsert` / `storeRemove`
  mirroring `BTreeMap::insert` / `BTreeMap::remove`.
- `ModifsCache(VecDeque<(Head, Vec<EntryModif>)>)` is modelled as a list whose
  first element is the front of the deque (the most recently pushed batch).
- `u32` / `usize` arithmetic is modelled on `Nat` with explicit reduction
  modulo `2^32` / `2^64` where the Rust operation wraps in release builds.
- The async lock of `SharedDB` makes each operation one atomic critical
  section, so each operation is a plain function on the guarded state `DB`;
  `serviceRun` mirrors the request dispatch of `services_impl` in `main.rs`
  as an explicit state transformer.
-/

namespace BootstrapPolling

/-- `MAX_CHUNK_SIZE` from `main.rs`: page size cap per fetch. -/
def MAX_CHUNK_SIZE : Nat := 20

/-- `CACHE_BUFFER_SIZE` from `main.rs`: capacity of the modification log. -/
def CACHE_BUFFER_SIZE : Nat := 1000

/-- Modulus of `u32` arithmetic. -/
def U32MOD : Nat := 4294967296

/-- Modulus of `usize` arithmetic (64-bit target). -/
def USIZEMOD : Nat := 18446744073709551616

/-- Rust `a - b` on `usize` in release builds: wrapping subtraction mod `2^64`
(for `a, b < 2^64`). In debug builds the same expression panics when `b > a`;
either way there is no validated error path. -/
def usizeSub (a b : Nat) : Nat := (a + USIZEMOD - b) % USIZEMOD

/-- `enum EntryModif { Delete(String), Update((String, String)) }`. -/
inductive EntryModif where
  | Delete : String → EntryModif
  | Update : String × String → EntryModif
deriving DecidableEq

/-- `type Head = u32`; values produced by the code stay below `2^32`. -/
abbrev Head := Nat

/-- `struct FetchResult { head, entries, diff }`. -/
structure FetchResult where
  head : Head
  entries : List EntryModif
  diff : List EntryModif
deriving DecidableEq

/-- `struct ModifsCache(VecDeque<(Head, Vec<EntryModif>)>)`; `q.head?` is the
front of the deque (newest batch), `q.getLast?` its back (oldest batch). -/
structure ModifsCache where
  q : List (Head × List EntryModif)
deriving DecidableEq

/-- `ModifsCache::head`: `self.0.back()` — the head stored with the OLDEST
retained batch, `0` when the log is empty. -/
def ModifsCache.head (c : ModifsCache) : Head :=
  match c.q.getLast? with
  | some hb => hb.1
  | none => 0

/-- `ModifsCache::append`: `new_head = self.head() + 1 % u32::MAX` (precedence:
`1 % u32::MAX = 1`, and the addition wraps mod `2^32` in release builds), then
`push_front`, then `pop_back` if the length exceeds `CACHE_BUFFER_SIZE`. -/
def ModifsCache.append (c : ModifsCache) (modifs : List EntryModif) : ModifsCache :=
  let new_head : Head := (c.head + 1 % 4294967295) % U32MOD
  let pushed := (new_head, modifs) :: c.q
  if pushed.length > CACHE_BUFFER_SIZE then ⟨pushed.dropLast⟩ else ⟨pushed⟩

/-- Loop body of `ModifsCache::diff`: walk the deque front to back, stop
(excluding) at the first batch whose head equals `head`, otherwise accumulate
the batch's modifications at the end of the result. -/
def diffAux (head : Head) : List (Head × List EntryModif) → List EntryModif
  | [] => []
  | (h, ms) :: rest => if head = h then [] else ms ++ diffAux head rest

/-- `ModifsCache::diff`. -/
def ModifsCache.diff (c : ModifsCache) (head : Head) : List EntryModif :=
  diffAux head c.q

/-- Lexicographic comparison of character lists by code point. For UTF-8
encoded strings, byte-wise lexicographic order (Rust's `Ord for String`)
coincides with code-point lexicographic order, so this is exactly the key
order of `BTreeMap<String, String>`. -/
def charsLt : List Char → List Char → Bool
  | [], [] => false
  | [], _ :: _ => true
  | _ :: _, [] => false
  | a :: as, b :: bs =>
    if a.toNat < b.toNat then true
    else if b.toNat < a.toNat then false
    else charsLt as bs

/-- Rust's `Ord for String` on the model. -/
def strLt (a b : String) : Bool :=
  charsLt a.data b.data

/-- The store: `BTreeMap<String, String>` as a key-sorted association list. -/
abbrev Store := List (String × String)

/-- Keys strictly ascending — the `BTreeMap` representation invariant. -/
abbrev sortedKeys (s : Store) : Prop :=
  List.Pairwise (fun p q => strLt p.1 q.1 = true) s

/-- `BTreeMap::insert` on the sorted-association-list model. -/
def storeInsert (k v : String) : Store → Store
  | [] => [(k, v)]
  | (k0, v0) :: t =>
    if strLt k k0 then (k, v) :: (k0, v0) :: t
    else if k = k0 then (k, v) :: t
    else (k0, v0) :: storeInsert k v t

/-- `BTreeMap::remove` on the sorted-association-list model. -/
def storeRemove (k : String) : Store → Store
  | [] => []
  | (k0, v0) :: t => if k = k0 then t else (k0, v0) :: storeRemove k t

/-- `BTreeMap::get` as an observer on the model. -/
def lookupKey : Store → String → Option String
  | [], _ => none
  | (k0, v0) :: t, k => if k = k0 then some v0 else lookupKey t k

/-- One arm of the `match` in `SharedDB::append`: apply a single modification
to the store. -/
def applyModif (data : Store) (m : EntryModif) : Store :=
  match m with
  | EntryModif.Delete key => storeRemove key data
  | EntryModif.Update kv => storeInsert kv.1 kv.2 data

/-- `struct DB { data, cache }` — the state guarded by the `SharedDB` lock. -/
structure DB where
  data : Store
  cache : ModifsCache
deriving DecidableEq

/-- `SharedDB::default()`: empty store, empty log. -/
def emptyDB : DB := ⟨[], ⟨[]⟩⟩

/-- `SharedDB::append`: under the lock, apply every modification in order,
then record the batch in the cache. -/
def SharedDB.append (db : DB) (modifs : List EntryModif) : DB :=
  ⟨modifs.foldl applyModif db.data, db.cache.append modifs⟩

/-- `SharedDB::info`: `(cache.head(), data.len())` read under the lock. -/
def SharedDB.info (db : DB) : Head × Nat :=
  (db.cache.head, db.data.length)

/-- `take_chunk`: `data.iter().skip(from).take(size)` re-expressed as `Update`
modifications. -/
def take_chunk (data : Store) (from_ size : Nat) : List EntryModif :=
  ((data.drop from_).take size).map (fun kv => EntryModif.Update kv)

/-- `SharedDB::fetch`: under the lock, page size `min(MAX_CHUNK_SIZE, end - begin)`
(the subtraction is the unchecked `usize` one), plus current head and diff. -/
def SharedDB.fetch (db : DB) (begin_ end_ : Nat) (head : Head) : FetchResult :=
  ⟨db.cache.head,
   take_chunk db.data begin_ (min MAX_CHUNK_SIZE (usizeSub end_ begin_)),
   db.cache.diff head⟩

/-- Requests dispatched by `services_impl` in `main.rs`. -/
inductive Op where
  | insert : List EntryModif → Op
  | info : Op
  | fetch : Nat → Nat → Head → Op

/-- Replies produced by `services_impl`. -/
inductive Reply where
  | ok : Reply
  | infoReply : Head → Nat → Reply
  | fetchReply : FetchResult → Reply

/-- The request dispatch of `services_impl`, as a state transformer on the
guarded state: each arm takes the lock, runs the operation, and returns the
reply together with the state it leaves behind. -/
def serviceRun : Op → DB → Reply × DB
  | Op.insert modifs, db => (Reply.ok, SharedDB.append db modifs)
  | Op.info, db => (Reply.infoReply (SharedDB.info db).1 (SharedDB.info db).2, db)
  | Op.fetch b e h, db => (Reply.fetchReply (SharedDB.fetch db b e h), db)

/-- A whole history: fold `SharedDB::append` over a list of batches. -/
def appendAll (db : DB) (batches : List (List EntryModif)) : DB :=
  batches.foldl SharedDB.append db

/-- Spec-side definition (for comparison with the code): replaying every batch
ever appended, in append order, applying each modification in batch order,
starting from the empty map. -/
def replay (batches : List (List EntryModif)) : Store :=
  batches.foldl (fun s b => b.foldl applyModif s) []

/-- Spec-side observer (for comparison with the code): reassembling a sequence
of modifications into a key-to-value mapping, starting from the empty map. -/
def reassemble (ms : List EntryModif) : Store :=
  ms.foldl applyModif []

/-! ### Order facts for the key comparison -/

theorem charsLt_irrefl (l : List Char) : charsLt l l = false := by
  induction l with
  | nil => rfl
  | cons a t ih => simp [charsLt, Nat.lt_irrefl, ih]

theorem charsLt_asymm (l m : List Char) (h : charsLt l m = true) :
    charsLt m l = false := by
  induction l generalizing m with
  | nil =>
    cases m with
    | nil => rfl
    | cons b bs => rfl
  | cons a as ih =>
    cases m with
    | nil => simp [charsLt] at h
    | cons b bs =>
      simp only [charsLt] at h ⊢
      by_cases h1 : a.toNat < b.toNat
      · have h2 : ¬b.toNat < a.toNat := Nat.lt_asymm h1
        simp [h1, h2]
      · by_cases h2 : b.toNat < a.toNat
        · simp [h1, h2] at h
        · simp only [h1, h2, if_false] at h
          simp [h1, h2, ih bs h]

theorem strLt_irrefl (a : String) : strLt a a = false :=
  charsLt_irrefl a.data

theorem strLt_asymm {a b : String} (h : strLt a b = true) : strLt b a = false :=
  charsLt_asymm a.data b.data h

theorem strLt_ne {a b : String} (h : strLt a b = true) : a ≠ b := by
  intro he
  subst he
  rw [strLt_irrefl] at h
  cases h

/-! ### Claims -/

/-- Claim C1, evaluation at the failing input. The claim says each append
increases `current_head` by exactly 1 and that `current_head` returns the head
of the most recent batch; but `ModifsCache::head` reads `self.0.back()` — the
OLDEST retained batch — while `append` pushes to the front. Starting from an
empty cache: after one append the head is 1; after a second append the head is
still 1 (the claim requires 2), and after a third append the recorded heads
are `[2, 2, 1]` front-to-back — neither strictly increasing nor incremented
per append. -/
theorem c1_head_not_incremented :
    (ModifsCache.append ⟨[]⟩ []).head = 1 ∧
    ((ModifsCache.append ⟨[]⟩ []).append []).head = 1 ∧
    (((ModifsCache.append ⟨[]⟩ []).append []).append []).q.map Prod.fst =
      [2, 2, 1] := by
  decide

/-- Claim C3, evaluation at the failing input. The claim says a `fetch` call
with `end < begin` is validated and rejected explicitly; the code instead
computes `end - begin` unchecked. On a two-key store, `fetch(1, 0, 0)` is not
rejected: the wrapped page size is `min(20, 2^64 - 1) = 20` and a data page is
served. -/
theorem c3_no_range_validation :
    min MAX_CHUNK_SIZE (usizeSub 0 1) = 20 ∧
    (SharedDB.fetch ⟨[("a", "1"), ("b", "2")], ⟨[]⟩⟩ 1 0 0).entries =
      [EntryModif.Update ("b", "2")] := by
  decide

/-- Claim C8: starting from an empty node, the single call
`append([Update(a,1), Delete(a)])` applies the batch in sequence order (the
`Delete` removes the key the `Update` inserted), leaving `size = 0`, and
advances the head by exactly 1 (from 0 to 1, not 2). -/
theorem c8_update_delete_one_batch :
    SharedDB.info (SharedDB.append emptyDB
      [EntryModif.Update ("a", "1"), EntryModif.Delete "a"]) = (1, 0) := by
  decide

/-- The loop of `ModifsCache::diff` accumulates exactly the batches strictly
before the first batch whose head equals the requested one. -/
theorem diffAux_eq_takeWhile (h : Head) (q : List (Head × List EntryModif)) :
    diffAux h q = ((q.takeWhile (fun b => b.1 != h)).map Prod.snd).flatten := by
  induction q with
  | nil => rfl
  | cons b rest ih =>
    obtain ⟨hb, ms⟩ := b
    by_cases hh : h = hb
    · subst hh
      simp [diffAux, List.takeWhile_cons]
    · have : (hb != h) = true := by
        simp [bne_iff_ne]
        exact fun he => hh he.symm
      simp [diffAux, List.takeWhile_cons, this, hh, ih]

/-- Claim C2: `diff_since(h)` scans the retained batches from newest to oldest
(the cache list is newest-first), accumulating each batch's modifications in
batch order, and stops (excluding that batch) at the first batch whose head
equals `h`; when no retained batch has head `h`, the result is the
concatenation of every retained batch's modifications, so the accumulated
sequence is in reverse chronological order across batches. -/
theorem c2_diff_since (q : List (Head × List EntryModif)) (h : Head) :
    ModifsCache.diff ⟨q⟩ h =
      ((q.takeWhile (fun b => b.1 != h)).map Prod.snd).flatten ∧
    ((∀ b ∈ q, b.1 ≠ h) → ModifsCache.diff ⟨q⟩ h = (q.map Prod.snd).flatten) := by
  have hbase : ModifsCache.diff ⟨q⟩ h =
      ((q.takeWhile (fun b => b.1 != h)).map Prod.snd).flatten :=
    diffAux_eq_takeWhile h q
  refine ⟨hbase, fun hnone => ?_⟩
  have hall : q.takeWhile (fun b => b.1 != h) = q := by
    rw [List.takeWhile_eq_self_iff]
    intro b hb
    simp only [bne_iff_ne, ne_eq, decide_eq_true_eq]
    exact hnone b hb
  rw [hbase, hall]

/-- Claim C2 witness: on a concrete two-batch cache and an unknown head, the
diff is the whole retained log, newest batch first. -/
theorem c2_diff_since_witness :
    ModifsCache.diff ⟨[(2, [EntryModif.Delete "b"]), (1, [EntryModif.Delete "a"])]⟩ 5 =
      [EntryModif.Delete "b", EntryModif.Delete "a"] :=
  ((c2_diff_since [(2, [EntryModif.Delete "b"]), (1, [EntryModif.Delete "a"])] 5).2
    (by decide)).trans (by decide)

/-- The store component of a history of appends is a fold of the batch
applications alone: the cache plays no part in it. -/
theorem appendAll_data (db : DB) (batches : List (List EntryModif)) :
    (appendAll db batches).data =
      batches.foldl (fun s b => b.foldl applyModif s) db.data := by
  induction batches generalizing db with
  | nil => rfl
  | cons b rest ih => exact ih (SharedDB.append db b)

/-- Claim C5: starting from an empty node, after any sequence of appends the
key-value store equals the replay of every batch ever appended, in append
order, applying each modification in batch order, from the empty map — in
particular log eviction (which only touches the cache) never changes the
store. -/
theorem c5_store_is_replay (batches : List (List EntryModif)) :
    (appendAll emptyDB batches).data = replay batches :=
  appendAll_data emptyDB batches

/-- Claim C9: `fetch` and `info` are read-only at the node interface — the
state they leave behind is exactly the state they found, key-value store and
modification log (head included) unchanged. -/
theorem c9_fetch_info_readonly (db : DB) (begin_ end_ : Nat) (h : Head)
    (hle : begin_ ≤ end_) :
    (serviceRun Op.info db).2 = db ∧
    (serviceRun (Op.fetch begin_ end_ h) db).2 = db :=
  ⟨rfl, rfl⟩

/-- Claim C9 witness: read-only at a concrete state and range. -/
theorem c9_fetch_info_readonly_witness :
    (0 : Nat) ≤ 1 ∧
    ((serviceRun Op.info emptyDB).2 = emptyDB ∧
      (serviceRun (Op.fetch 0 1 0) emptyDB).2 = emptyDB) :=
  ⟨Nat.zero_le 1, c9_fetch_info_readonly emptyDB 0 1 0 (Nat.zero_le 1)⟩

/-- Unfolded form of `ModifsCache.append`: push the new batch to the front,
then drop the back element when the capacity is exceeded. -/
theorem ModifsCache.append_q (c : ModifsCache) (b : List EntryModif) :
    (c.append b).q =
      if c.q.length + 1 > CACHE_BUFFER_SIZE
      then (((c.head + 1 % 4294967295) % U32MOD, b) :: c.q).dropLast
      else ((c.head + 1 % 4294967295) % U32MOD, b) :: c.q := by
  by_cases hP : c.q.length + 1 > CACHE_BUFFER_SIZE
  · simp [ModifsCache.append, hP]
  · simp [ModifsCache.append, hP]

/-- One bounded push keeps the cache equal to the newest-first truncation of
the full history of batches. -/
theorem cache_push_take (c : ModifsCache) (b : List EntryModif)
    (rev : List (List EntryModif))
    (hc : c.q.map Prod.snd = rev.take CACHE_BUFFER_SIZE) :
    (c.append b).q.map Prod.snd = (b :: rev).take CACHE_BUFFER_SIZE := by
  have hlen : c.q.length = min CACHE_BUFFER_SIZE rev.length := by
    have h1 := congrArg List.length hc
    simpa [List.length_take] using h1
  rw [ModifsCache.append_q]
  by_cases hP : c.q.length + 1 > CACHE_BUFFER_SIZE
  · rw [if_pos hP]
    have hrev : CACHE_BUFFER_SIZE ≤ rev.length := by
      by_contra hlt
      simp only [CACHE_BUFFER_SIZE] at hP hlen hlt
      omega
    rw [List.map_dropLast, List.map_cons, hc]
    have htl : (rev.take CACHE_BUFFER_SIZE).length = CACHE_BUFFER_SIZE := by
      simp [List.length_take]
      omega
    have hdrop : (b :: rev.take CACHE_BUFFER_SIZE).dropLast =
        List.take CACHE_BUFFER_SIZE (b :: rev.take CACHE_BUFFER_SIZE) := by
      rw [List.dropLast_eq_take]
      simp [htl]
    rw [hdrop]
    have hCB : CACHE_BUFFER_SIZE = 999 + 1 := rfl
    rw [hCB, List.take_succ_cons, List.take_succ_cons, List.take_take]
    simp
  · rw [if_neg hP]
    have hrev : rev.length < CACHE_BUFFER_SIZE := by
      simp only [CACHE_BUFFER_SIZE] at hP hlen ⊢
      omega
    have h1 : rev.take CACHE_BUFFER_SIZE = rev :=
      List.take_of_length_le (Nat.le_of_lt hrev)
    have h2 : (b :: rev).take CACHE_BUFFER_SIZE = b :: rev :=
      List.take_of_length_le (by simp; omega)
    rw [List.map_cons, hc, h1, h2]

/-- The cache after a history of appends holds the newest-first truncation of
the whole history of batch payloads. -/
theorem appendAll_cache_snd (bs : List (List EntryModif)) (db : DB)
    (rev : List (List EntryModif))
    (hdb : db.cache.q.map Prod.snd = rev.take CACHE_BUFFER_SIZE) :
    (appendAll db bs).cache.q.map Prod.snd =
      (bs.reverse ++ rev).take CACHE_BUFFER_SIZE := by
  induction bs generalizing db rev with
  | nil => simpa using hdb
  | cons x rest ih =>
    have hstep : (SharedDB.append db x).cache.q.map Prod.snd =
        (x :: rev).take CACHE_BUFFER_SIZE := cache_push_take db.cache x rev hdb
    have hrec := ih (SharedDB.append db x) (x :: rev) hstep
    have hfold : appendAll db (x :: rest) = appendAll (SharedDB.append db x) rest := rfl
    rw [hfold, hrec, List.reverse_cons, List.append_assoc]
    simp

/-- Claim C6: starting from an empty node, after `n` append calls the
modification log retains exactly `min n 1000` batches, and those are the most
recent `min n 1000` batches of the history (the cache, newest first, equals
the reversed history truncated to the capacity); in particular after 1001
appends only the most recent 1000 batches remain and the oldest is evicted. -/
theorem c6_log_retention (batches : List (List EntryModif)) :
    (appendAll emptyDB batches).cache.q.length =
      min batches.length CACHE_BUFFER_SIZE ∧
    (appendAll emptyDB batches).cache.q.map Prod.snd =
      batches.reverse.take CACHE_BUFFER_SIZE := by
  have hsnd := appendAll_cache_snd batches emptyDB [] rfl
  rw [List.append_nil] at hsnd
  refine ⟨?_, hsnd⟩
  have h1 := congrArg List.length hsnd
  simp only [List.length_map, List.length_take, List.length_reverse] at h1
  omega

/-- Inserting the same key-value pair a second time changes nothing. -/
theorem storeInsert_idem (k v : String) (s : Store) :
    storeInsert k v (storeInsert k v s) = storeInsert k v s := by
  induction s with
  | nil => simp [storeInsert, strLt_irrefl]
  | cons p t ih =>
    obtain ⟨k0, v0⟩ := p
    by_cases h1 : strLt k k0 = true
    · simp [storeInsert, h1, strLt_irrefl]
    · by_cases h2 : k = k0
      · subst h2
        simp [storeInsert, strLt_irrefl]
      · simp [storeInsert, h1, h2, ih]

/-- Lookup after insert: the inserted key maps to the new value, every other
key is untouched. -/
theorem lookupKey_storeInsert (k v kq : String) (s : Store) :
    lookupKey (storeInsert k v s) kq =
      if kq = k then some v else lookupKey s kq := by
  induction s with
  | nil => simp [storeInsert, lookupKey]
  | cons p t ih =>
    obtain ⟨k0, v0⟩ := p
    by_cases h1 : strLt k k0 = true
    · simp [storeInsert, h1, lookupKey]
    · by_cases h2 : k = k0
      · subst h2
        by_cases hq : kq = k
        · simp [storeInsert, strLt_irrefl, lookupKey, hq]
        · simp [storeInsert, strLt_irrefl, lookupKey, hq]
      · by_cases hq0 : kq = k0
        · have hqk : kq ≠ k := by
            rw [hq0]
            exact fun he => h2 he.symm
          have h2s : k0 ≠ k := fun he => h2 he.symm
          simp [storeInsert, h1, h2, lookupKey, hq0, hqk, h2s]
        · simp [storeInsert, h1, h2, lookupKey, hq0, ih]

/-- A key related to nothing in the list is not found. -/
theorem lookupKey_none_of_ne (k : String) (t : Store)
    (h : ∀ p ∈ t, k ≠ p.1) : lookupKey t k = none := by
  induction t with
  | nil => rfl
  | cons p r ih =>
    obtain ⟨k0, v0⟩ := p
    have hne : k ≠ k0 := h (k0, v0) (by simp)
    simp only [lookupKey, hne, if_neg, if_false]
    exact ih (fun q hq => h q (by simp [hq]))

/-- On a key-sorted store, removing a key really removes it. -/
theorem lookupKey_storeRemove_self (k : String) (s : Store) (hs : sortedKeys s) :
    lookupKey (storeRemove k s) k = none := by
  induction s with
  | nil => rfl
  | cons p t ih =>
    obtain ⟨k0, v0⟩ := p
    have hrest : sortedKeys t := hs.of_cons
    by_cases h : k = k0
    · subst h
      simp only [storeRemove, if_pos rfl]
      apply lookupKey_none_of_ne
      intro q hq
      exact strLt_ne ((List.pairwise_cons.mp hs).1 q hq)
    · simp [storeRemove, h, lookupKey, ih hrest]

/-- Removing an absent key is a no-op. -/
theorem storeRemove_of_lookup_none (k : String) (s : Store)
    (h : lookupKey s k = none) : storeRemove k s = s := by
  induction s with
  | nil => rfl
  | cons p t ih =>
    obtain ⟨k0, v0⟩ := p
    by_cases hk : k = k0
    · subst hk
      simp [lookupKey] at h
    · simp only [lookupKey, hk, if_neg, if_false] at h
      simp [storeRemove, hk, ih h]

/-- On a key-sorted store, removing the same key twice equals removing it
once. -/
theorem storeRemove_idem (k : String) (s : Store) (hs : sortedKeys s) :
    storeRemove k (storeRemove k s) = storeRemove k s :=
  storeRemove_of_lookup_none k _ (lookupKey_storeRemove_self k s hs)

/-- Claim C7: on any key-sorted store (the `BTreeMap` invariant), applying any
single modification twice in succession equals applying it once; `Update`
inserts or overwrites the key leaving other keys untouched; `Delete` removes
the key when present and is a no-op when the key is absent. -/
theorem c7_apply_idempotent (s : Store) (m : EntryModif) (hs : sortedKeys s) :
    applyModif (applyModif s m) m = applyModif s m ∧
    (∀ k v kq, lookupKey (applyModif s (EntryModif.Update (k, v))) kq =
      if kq = k then some v else lookupKey s kq) ∧
    (∀ k, lookupKey (applyModif s (EntryModif.Delete k)) k = none) ∧
    (∀ k, lookupKey s k = none → applyModif s (EntryModif.Delete k) = s) := by
  refine ⟨?_, ?_, ?_, ?_⟩
  · cases m with
    | Delete k => exact storeRemove_idem k s hs
    | Update kv => exact storeInsert_idem kv.1 kv.2 s
  · intro k v kq
    exact lookupKey_storeInsert k v kq s
  · intro k
    exact lookupKey_storeRemove_self k s hs
  · intro k h
    exact storeRemove_of_lookup_none k s h

/-- Claim C7 witness: idempotence of a concrete `Delete` on a concrete sorted
one-key store. -/
theorem c7_apply_idempotent_witness :
    sortedKeys [("a", "1")] ∧
    applyModif (applyModif [("a", "1")] (EntryModif.Delete "a"))
        (EntryModif.Delete "a") =
      applyModif [("a", "1")] (EntryModif.Delete "a") :=
  ⟨by decide, (c7_apply_idempotent [("a", "1")] (EntryModif.Delete "a") (by decide)).1⟩

/-- Inserting a key greater than every key of the accumulator appends it at
the end. -/
theorem storeInsert_append (k v : String) (acc : Store)
    (hacc : ∀ p ∈ acc, strLt p.1 k = true) :
    storeInsert k v acc = acc ++ [(k, v)] := by
  induction acc with
  | nil => rfl
  | cons p t ih =>
    obtain ⟨k0, v0⟩ := p
    have hk : strLt k0 k = true := hacc (k0, v0) (by simp)
    have h1 : strLt k k0 = false := strLt_asymm hk
    have h2 : k ≠ k0 := Ne.symm (strLt_ne hk)
    simp only [storeInsert, h1, h2, if_neg, if_false, Bool.false_eq_true]
    rw [ih (fun q hq => hacc q (by simp [hq]))]
    rfl

/-- Replaying a key-sorted run of `Update`s onto an accumulator entirely below
it appends the run. -/
theorem foldl_insert_sorted (l : Store) : ∀ acc : Store,
    sortedKeys l →
    (∀ p ∈ acc, ∀ q ∈ l, strLt p.1 q.1 = true) →
    List.foldl applyModif acc (l.map (fun kv => EntryModif.Update kv)) =
      acc ++ l := by
  induction l with
  | nil =>
    intro acc _ _
    simp
  | cons x t ih =>
    intro acc hsort hacc
    obtain ⟨k, v⟩ := x
    simp only [List.map_cons, List.foldl_cons]
    have h1 : applyModif acc (EntryModif.Update (k, v)) = acc ++ [(k, v)] :=
      storeInsert_append k v acc (fun p hp => hacc p hp (k, v) (by simp))
    rw [h1]
    have hsort2 : sortedKeys t := hsort.of_cons
    have hacc2 : ∀ p ∈ acc ++ [(k, v)], ∀ q ∈ t, strLt p.1 q.1 = true := by
      intro p hp q hq
      rcases List.mem_append.mp hp with hin | hin
      · exact hacc p hin q (by simp [hq])
      · have hpk : p = (k, v) := by simpa using hin
        subst hpk
        exact (List.pairwise_cons.mp hsort).1 q hq
    rw [ih (acc ++ [(k, v)]) hsort2 hacc2, List.append_assoc]
    rfl

/-- A node state with 21 live keys and an empty log. -/
def db21 : DB :=
  ⟨[("a", "0"), ("b", "0"), ("c", "0"), ("d", "0"), ("e", "0"), ("f", "0"),
    ("g", "0"), ("h", "0"), ("i", "0"), ("j", "0"), ("k", "0"), ("l", "0"),
    ("m", "0"), ("n", "0"), ("o", "0"), ("p", "0"), ("q", "0"), ("r", "0"),
    ("s", "0"), ("t", "0"), ("u", "0")], ⟨[]⟩⟩

set_option maxRecDepth 2000000 in
/-- Claim C4 counterexample: on a store with 21 live keys,
`fetch(0, size, 0).entries` is capped at `MAX_CHUNK_SIZE = 20` entries, so
the mapping reassembled from it is missing the last key and differs from the
live store contents; the claim as stated fails for any store larger than one
page. -/
theorem c4_counterexample :
    reassemble (SharedDB.fetch db21 0 db21.data.length 0).entries ≠
      db21.data := by
  decide

set_option maxRecDepth 2000000 in
/-- Claim C4 amended: provided the store fits in one page
(`size ≤ MAX_CHUNK_SIZE = 20`), the entries of `fetch(0, size, 0)`,
re-expressed as `Update` modifications and reassembled into a mapping, equal
the live store contents at the moment of the call (no concurrent mutation is
representable: the call is a single critical section on the guarded state). -/
theorem c4_amended (db : DB) (hs : sortedKeys db.data)
    (hlen : db.data.length ≤ MAX_CHUNK_SIZE) :
    reassemble (SharedDB.fetch db 0 db.data.length 0).entries = db.data := by
  have hlt : db.data.length < USIZEMOD := by
    simp only [MAX_CHUNK_SIZE] at hlen
    simp only [USIZEMOD]
    omega
  have hsub : usizeSub db.data.length 0 = db.data.length := by
    simp only [usizeSub]
    rw [Nat.sub_zero, Nat.add_mod_right]
    exact Nat.mod_eq_of_lt hlt
  have hentries : (SharedDB.fetch db 0 db.data.length 0).entries =
      db.data.map (fun kv => EntryModif.Update kv) := by
    simp only [SharedDB.fetch, take_chunk, hsub, min_eq_right hlen,
      List.drop_zero, List.take_length]
  rw [hentries]
  have h := foldl_insert_sorted db.data [] hs (by intro p hp; simp at hp)
  simpa using h

/-- Claim C4 amended witness: a concrete two-key store is returned whole and
reassembles to itself. -/
theorem c4_amended_witness :
    (sortedKeys [("a", "1"), ("b", "2")] ∧
      ([("a", "1"), ("b", "2")] : Store).length ≤ MAX_CHUNK_SIZE) ∧
    reassemble (SharedDB.fetch ⟨[("a", "1"), ("b", "2")], ⟨[]⟩⟩ 0 2 0).entries =
      [("a", "1"), ("b", "2")] :=
  ⟨⟨by decide, by decide⟩,
    c4_amended ⟨[("a", "1"), ("b", "2")], ⟨[]⟩⟩ (by decide) (by decide)⟩

/-- Claim C10: paging past the end of the store is safe, not an error — for
`end ≥ begin` (and `usize`-representable bounds), the entries of
`fetch(begin, end, head)` are exactly the consecutive store entries starting
at ordinal position `begin`, capped at `min(MAX_CHUNK_SIZE, end - begin)`
entries, re-expressed as `Update`s; at most that many entries are returned;
the page is empty when `begin` is at or beyond the number of live keys; and
the page is in ascending key order. -/
theorem c10_paging_safe (db : DB) (begin_ end_ : Nat) (hd : Head)
    (hs : sortedKeys db.data) (hle : begin_ ≤ end_) (hsz : end_ < USIZEMOD) :
    (SharedDB.fetch db begin_ end_ hd).entries =
      ((db.data.drop begin_).take (min MAX_CHUNK_SIZE (end_ - begin_))).map
        (fun kv => EntryModif.Update kv) ∧
    (SharedDB.fetch db begin_ end_ hd).entries.length ≤
      min MAX_CHUNK_SIZE (end_ - begin_) ∧
    (db.data.length ≤ begin_ → (SharedDB.fetch db begin_ end_ hd).entries = []) ∧
    sortedKeys ((db.data.drop begin_).take (min MAX_CHUNK_SIZE (end_ - begin_))) := by
  have hsub : usizeSub end_ begin_ = end_ - begin_ := by
    simp only [usizeSub]
    have h1 : end_ + USIZEMOD - begin_ = (end_ - begin_) + USIZEMOD := by omega
    rw [h1, Nat.add_mod_right]
    exact Nat.mod_eq_of_lt (by omega)
  have hent : (SharedDB.fetch db begin_ end_ hd).entries =
      ((db.data.drop begin_).take (min MAX_CHUNK_SIZE (end_ - begin_))).map
        (fun kv => EntryModif.Update kv) := by
    simp only [SharedDB.fetch, take_chunk, hsub]
  refine ⟨hent, ?_, ?_, ?_⟩
  · rw [hent]
    simp only [List.length_map, List.length_take]
    exact min_le_left _ _
  · intro hbeyond
    rw [hent, List.drop_eq_nil_of_le hbeyond]
    simp
  · exact List.Pairwise.sublist
      ((List.take_sublist _ _).trans (List.drop_sublist _ _)) hs

/-- Claim C10 witness: fetching well past the end of a one-key store returns
the single entry and nothing more. -/
theorem c10_paging_safe_witness :
    (sortedKeys ([("a", "1")] : Store) ∧ (0 : Nat) ≤ 5 ∧ 5 < USIZEMOD) ∧
    (SharedDB.fetch ⟨[("a", "1")], ⟨[]⟩⟩ 0 5 0).entries =
      [EntryModif.Update ("a", "1")] := by
  have h := c10_paging_safe ⟨[("a", "1")], ⟨[]⟩⟩ 0 5 0 (by decide) (by decide)
    (by decide)
  exact ⟨⟨by decide, by decide, by decide⟩, h.1.trans (by decide)⟩

end BootstrapPolling
